import Mathlib

/-!
Verification of the RustyCode build-task orchestration and diagnostic
pipeline: a shallow embedding, in Lean 4, of the task lifecycle state
machine (`CargoTask`), the diagnostic publisher, the three diagnostic
parsers, the argument synthesis of the task manager, and the racer RPC
driver's line reassembly and FIFO callback queue, together with proofs
about their stated properties.
-/

namespace RustyCode

/-! ## CargoTask lifecycle (src/unnamed/part_003, `CargoTask`)

The `execute` promise together with the `kill` method is modelled as a
state machine.  The state records whether the child process is still
alive with its listeners attached (`processActive`; the `exit` handler
calls `removeAllListeners` and sets `process = null`, and both checks
always agree), the `interrupted` flag, how many interrupt signals have
been sent via tree-kill (`sigints`), and the settled outcome of the
promise (`result`, `none` while pending; a promise settles once, the
first `resolve`/`reject` wins). -/

/-- Outcome of the `execute` promise: resolved with an exit code,
rejected with no argument (interruption), or rejected with an error. -/
inductive TaskResult where
  | completed (code : Int)
  | interrupted
  | failed
deriving DecidableEq

/-- Events delivered to a running `CargoTask`: a `kill()` call, the
child process `exit` event, or the child process `error` event. -/
inductive TaskEvent where
  | kill
  | exit (code : Int)
  | processError
deriving DecidableEq

/-- State of one `CargoTask` after `execute` has spawned the process. -/
structure CargoTask where
  processActive : Bool
  interrupted : Bool
  sigints : Nat
  result : Option TaskResult
deriving DecidableEq

/-- First settlement wins: `resolve`/`reject` on an already settled
promise is a no-op. -/
def settle (s : CargoTask) (r : TaskResult) : CargoTask :=
  match s.result with
  | some _ => s
  | none => { s with result := some r }

/-- One step of the task state machine, mirroring the handlers installed
in `CargoTask.execute` and the body of `CargoTask.kill`:
`kill` sends SIGINT to the process tree and sets `interrupted` only when
not already interrupted and a process is active; `exit` removes all
listeners, clears the process handle and rejects with no argument when
interrupted, otherwise resolves with the exit code; `error` rejects with
the error. -/
def taskStep (s : CargoTask) (e : TaskEvent) : CargoTask :=
  match e with
  | .kill =>
      if !s.interrupted && s.processActive then
        { s with interrupted := true, sigints := s.sigints + 1 }
      else s
  | .exit code =>
      if s.processActive then
        let s1 := { s with processActive := false }
        if s.interrupted then settle s1 .interrupted else settle s1 (.completed code)
      else s
  | .processError =>
      if s.processActive then settle s .failed else s

/-- Deliver a sequence of events to the task. -/
def runTask (s : CargoTask) (events : List TaskEvent) : CargoTask :=
  events.foldl taskStep s

/-- The state right after `execute` spawns the process: active, not
interrupted, no signal sent, promise pending. -/
def runningTask : CargoTask :=
  { processActive := true, interrupted := false, sigints := 0, result := none }

lemma runTask_append (s : CargoTask) (t1 t2 : List TaskEvent) :
    runTask s (t1 ++ t2) = runTask (runTask s t1) t2 :=
  List.foldl_append ..

lemma runTask_cons (s : CargoTask) (e : TaskEvent) (t : List TaskEvent) :
    runTask s (e :: t) = runTask (taskStep s e) t := rfl

lemma kill_only_run (t : List TaskEvent) (s : CargoTask)
    (h : ∀ e ∈ t, e = TaskEvent.kill) :
    (runTask s t).processActive = s.processActive ∧ (runTask s t).result = s.result := by
  induction t generalizing s with
  | nil => exact ⟨rfl, rfl⟩
  | cons e t ih =>
      have he : e = TaskEvent.kill := h e (by simp)
      subst he
      have hrest : ∀ e ∈ t, e = TaskEvent.kill := fun e hm => h e (by simp [hm])
      rw [runTask_cons]
      have := ih (taskStep s .kill) hrest
      have hstep : (taskStep s .kill).processActive = s.processActive ∧
          (taskStep s .kill).result = s.result := by
        simp only [taskStep]
        by_cases hi : (!s.interrupted && s.processActive) = true <;> simp [hi]
      exact ⟨this.1.trans hstep.1, this.2.trans hstep.2⟩

lemma kill_sets_interrupted (s : CargoTask) (hact : s.processActive = true) :
    (taskStep s .kill).interrupted = true ∧
    (taskStep s .kill).processActive = true ∧
    (taskStep s .kill).result = s.result := by
  simp only [taskStep]
  cases hi : s.interrupted <;> simp [hi, hact]

/-- Invariant holding from the moment `kill` has been observed while the
process was still alive: `interrupted` is set, and the promise is either
still pending with the process alive, or already settled as interrupted. -/
def KillInv (s : CargoTask) : Prop :=
  s.interrupted = true ∧
    ((s.result = none ∧ s.processActive = true) ∨ s.result = some TaskResult.interrupted)

lemma killInv_step (s : CargoTask) (e : TaskEvent) (hinv : KillInv s)
    (he : e ≠ TaskEvent.processError) : KillInv (taskStep s e) := by
  obtain ⟨hint, hcase⟩ := hinv
  cases e with
  | kill => simpa [taskStep, hint] using ⟨hint, hcase⟩
  | exit code =>
      rcases hcase with ⟨hres, hact⟩ | hres
      · refine ⟨?_, Or.inr ?_⟩ <;> simp [taskStep, hact, hint, settle, hres]
      · by_cases hact : s.processActive = true
        · refine ⟨?_, Or.inr ?_⟩ <;> simp [taskStep, hact, hint, settle, hres]
        · simp only [Bool.not_eq_true] at hact
          simpa [taskStep, hact] using ⟨hint, Or.inr hres⟩
  | processError => exact absurd rfl he

lemma killInv_run (s : CargoTask) (t : List TaskEvent) (hinv : KillInv s)
    (he : ∀ e ∈ t, e ≠ TaskEvent.processError) : KillInv (runTask s t) := by
  induction t generalizing s with
  | nil => exact hinv
  | cons e t ih =>
      rw [runTask_cons]
      exact ih _ (killInv_step s e hinv (he e (by simp)))
        (fun e hm => he e (by simp [hm]))

lemma killInv_exit (s : CargoTask) (code : Int) (hinv : KillInv s) :
    (taskStep s (.exit code)).result = some TaskResult.interrupted := by
  obtain ⟨hint, hcase⟩ := hinv
  rcases hcase with ⟨hres, hact⟩ | hres
  · simp [taskStep, hact, hint, settle, hres]
  · by_cases hact : s.processActive = true
    · simp [taskStep, hact, hint, settle, hres]
    · simp only [Bool.not_eq_true] at hact
      simp [taskStep, hact, hres]

lemma settled_interrupted_run (s : CargoTask) (t : List TaskEvent)
    (hres : s.result = some TaskResult.interrupted) :
    (runTask s t).result = some TaskResult.interrupted := by
  induction t generalizing s with
  | nil => exact hres
  | cons e t ih =>
      rw [runTask_cons]
      refine ih _ ?_
      cases e with
      | kill =>
          simp only [taskStep]
          by_cases hi : (!s.interrupted && s.processActive) = true <;> simp [hi, hres]
      | exit code =>
          by_cases hact : s.processActive = true
          · by_cases hi : s.interrupted = true <;> simp [taskStep, hact, hi, settle, hres]
          · simp only [Bool.not_eq_true] at hact
            simp [taskStep, hact, hres]
      | processError =>
          by_cases hact : s.processActive = true <;> simp [taskStep, hact, settle, hres]

/-- C1: if `kill()` is called while the task is still running and its
natural `exit` event is only delivered afterwards (and the process does
not fail with an `error` event), the `execute` promise is settled as
rejected-with-no-argument (interrupted), never resolved with a numeric
exit code. -/
theorem cargoTask_kill_wins (t1 t2 : List TaskEvent)
    (h1 : ∀ e ∈ t1, e = TaskEvent.kill)
    (h2 : ∀ e ∈ t2, e ≠ TaskEvent.processError)
    (hexit : ∃ c, TaskEvent.exit c ∈ t2) :
    (runTask runningTask (t1 ++ TaskEvent.kill :: t2)).result
      = some TaskResult.interrupted ∧
    ∀ c, (runTask runningTask (t1 ++ TaskEvent.kill :: t2)).result
      ≠ some (TaskResult.completed c) := by
  rw [runTask_append]
  obtain ⟨hact1, hres1⟩ := kill_only_run t1 runningTask h1
  rw [runTask_cons]
  set s1 := runTask runningTask t1 with hs1
  obtain ⟨hi2, ha2, hr2⟩ := kill_sets_interrupted s1 (by rw [hact1]; rfl)
  have hinv2 : KillInv (taskStep s1 .kill) := by
    refine ⟨hi2, Or.inl ⟨?_, ha2⟩⟩
    rw [hr2, hres1]; rfl
  obtain ⟨c, hc⟩ := hexit
  obtain ⟨u, v, huv⟩ := List.append_of_mem hc
  subst huv
  rw [runTask_append]
  have hinvu : KillInv (runTask (taskStep s1 .kill) u) :=
    killInv_run _ u hinv2 (fun e hm => h2 e (by simp [hm]))
  rw [runTask_cons]
  have hset := killInv_exit _ c hinvu
  have hfinal := settled_interrupted_run _ v hset
  exact ⟨hfinal, fun c' h => by simp [hfinal] at h⟩

/-- Witness for C1: `kill` followed by a natural `exit 0` yields an
interrupted result. -/
theorem cargoTask_kill_wins_witness :
    (runTask runningTask [TaskEvent.kill, TaskEvent.exit 0]).result
      = some TaskResult.interrupted :=
  (cargoTask_kill_wins [] [TaskEvent.exit 0] (by simp) (by simp) ⟨0, by simp⟩).1

/-- C10: `kill()` is idempotent.  When the task is already interrupted or
no process is active it is a no-op (no signal, no state change);
otherwise it sends exactly one interrupt signal to the process tree and
sets `interrupted`; and a second `kill()` equals a single one. -/
theorem cargoTask_kill_idempotent (s : CargoTask) :
    ((s.interrupted = true ∨ s.processActive = false) → taskStep s .kill = s) ∧
    (s.interrupted = false → s.processActive = true →
      taskStep s .kill = { s with interrupted := true, sigints := s.sigints + 1 }) ∧
    taskStep (taskStep s .kill) .kill = taskStep s .kill := by
  obtain ⟨pa, intr, sg, res⟩ := s
  cases pa <;> cases intr <;> simp [taskStep]

/-- Witness for C10 at the freshly running task. -/
theorem cargoTask_kill_idempotent_witness :
    taskStep (taskStep runningTask .kill) .kill = taskStep runningTask .kill ∧
    taskStep runningTask .kill
      = { runningTask with interrupted := true, sigints := 1 } :=
  ⟨(cargoTask_kill_idempotent runningTask).2.2,
   (cargoTask_kill_idempotent runningTask).2.1 rfl rfl⟩

/-! ## Line reassembly (src/unnamed/part_001, `CompletionManager.dataHandler`)

The racer daemon's stdout handler buffers a chunk wholesale when it does
not end in a line terminator (`/\r?\n$/` tests exactly "ends with a
newline"), and otherwise splits accumulated data on `/\r?\n/`.  Streams
are modelled as `List Char`.  Splitting on `/\r?\n/` is implemented as
splitting on the newline character and then stripping one trailing
carriage return from every segment except the last (every non-last
segment was followed by a newline in the original text, so `\r\n` pairs
are consumed as one terminator, while a carriage return not followed by
a newline is kept). -/

/-- Prepend a character onto the first segment of a split result. -/
def consHead (c : Char) : List (List Char) → List (List Char)
  | [] => [[c]]
  | s :: ss => (c :: s) :: ss

/-- Split a character stream on the newline character. -/
def splitNL : List Char → List (List Char)
  | [] => [[]]
  | c :: rest => if c = '\n' then [] :: splitNL rest else consHead c (splitNL rest)

/-- Strip one trailing carriage return, if present. -/
def stripCR (l : List Char) : List Char :=
  match l.getLast? with
  | some c => if c = '\r' then l.dropLast else l
  | none => l

/-- Apply a function to every element but the last. -/
def mapExceptLast (f : List Char → List Char) : List (List Char) → List (List Char)
  | [] => []
  | [x] => [x]
  | x :: y :: ys => f x :: mapExceptLast f (y :: ys)

/-- Split a character stream the way JavaScript splits on the regex
matching an optional carriage return followed by a newline. -/
def splitRN (s : List Char) : List (List Char) :=
  mapExceptLast stripCR (splitNL s)

/-- The non-empty lines of a stream: `dataHandler` skips empty lines. -/
def cleanLines (s : List Char) : List (List Char) :=
  (splitRN s).filter (fun l => !l.isEmpty)

/-- The chunk-buffering test of `dataHandler`: the regex asking for an
optional carriage return then a newline at end of string holds exactly
when the string ends with a newline. -/
def endsNL (s : List Char) : Bool :=
  s.getLast? == some '\n'

lemma splitNL_ne_nil (s : List Char) : splitNL s ≠ [] := by
  cases s with
  | nil => simp [splitNL]
  | cons c rest =>
      simp only [splitNL]
      by_cases h : c = '\n'
      · simp [h]
      · simp only [h, if_false]
        cases splitNL rest <;> simp [consHead]

lemma consHead_append (c : Char) (A B : List (List Char)) (hA : A ≠ []) :
    consHead c (A ++ B) = consHead c A ++ B := by
  cases A with
  | nil => exact absurd rfl hA
  | cons s ss => simp [consHead]

lemma splitNL_append_nl (P Q : List Char) :
    splitNL (P ++ '\n' :: Q) = splitNL P ++ splitNL Q := by
  induction P with
  | nil => simp [splitNL]
  | cons c P ih =>
      by_cases h : c = '\n'
      · simp [splitNL, h, ih]
      · simp only [List.cons_append, splitNL, h, if_false, List.append_eq]
        rw [ih]
        exact consHead_append c _ _ (splitNL_ne_nil P)

lemma mapExceptLast_append (f : List Char → List Char) (A B : List (List Char))
    (hB : B ≠ []) : mapExceptLast f (A ++ B) = A.map f ++ mapExceptLast f B := by
  induction A with
  | nil => simp
  | cons a A ih =>
      have h : A ++ B ≠ [] := by simp [hB]
      match hAB : A ++ B with
      | [] => exact absurd hAB h
      | y :: ys =>
          simp only [List.cons_append, hAB, mapExceptLast, List.map_cons, List.cons_append]
          rw [← hAB, ih]

lemma cleanLines_nil : cleanLines [] = [] := rfl

/-- Processing a newline-terminated prefix and the rest separately gives
the same non-empty lines as processing them together. -/
lemma cleanLines_chunk (P Q : List Char) :
    cleanLines (P ++ '\n' :: Q) = cleanLines (P ++ ['\n']) ++ cleanLines Q := by
  have h1 : cleanLines (P ++ '\n' :: Q)
      = ((splitNL P).map stripCR).filter (fun l => !l.isEmpty) ++ cleanLines Q := by
    unfold cleanLines splitRN
    rw [splitNL_append_nl, mapExceptLast_append _ _ _ (splitNL_ne_nil Q),
      List.filter_append]
  have h2 : cleanLines (P ++ ['\n'])
      = ((splitNL P).map stripCR).filter (fun l => !l.isEmpty) := by
    unfold cleanLines splitRN
    have : splitNL (P ++ ['\n']) = splitNL P ++ [[]] := by
      have := splitNL_append_nl P []
      simpa [splitNL] using this
    rw [this, mapExceptLast_append _ _ _ (by simp), List.filter_append]
    simp [mapExceptLast]
  rw [h1, h2]

lemma endsNL_append (b c : List Char) (hb : endsNL b = false) (hc : endsNL c = false) :
    endsNL (b ++ c) = false := by
  cases c with
  | nil => simpa using hb
  | cons x xs =>
      unfold endsNL at *
      rwa [List.getLast?_append_of_ne_nil b (by simp)]

lemma endsNL_iff (c : List Char) : endsNL c = true ↔ ∃ c', c = c' ++ ['\n'] := by
  constructor
  · intro h
    unfold endsNL at h
    have hne : c ≠ [] := by rintro rfl; simp at h
    have hlast : c.getLast hne = '\n' := by
      have h' : c.getLast? = some '\n' := by simpa using h
      rw [List.getLast?_eq_getLast_of_ne_nil hne] at h'
      exact Option.some.inj h'
    have hd := List.dropLast_append_getLast hne
    rw [hlast] at hd
    exact ⟨c.dropLast, hd.symm⟩
  · rintro ⟨c', rfl⟩
    unfold endsNL
    rw [List.getLast?_append_of_ne_nil c' (by simp)]
    rfl

/-! The reassembler state: the partial-line buffer and the lines yielded
so far. -/

/-- State of the line reassembler. -/
structure Reasm where
  buf : List Char
  out : List (List Char)
deriving DecidableEq

/-- Feed one chunk: buffer it in full when it does not end with a line
terminator, otherwise split the accumulated data into lines. -/
def feedChunk (s : Reasm) (c : List Char) : Reasm :=
  if endsNL c then { buf := [], out := s.out ++ cleanLines (s.buf ++ c) }
  else { s with buf := s.buf ++ c }

/-- Feed a sequence of chunks. -/
def feedChunks (s : Reasm) (cs : List (List Char)) : Reasm :=
  cs.foldl feedChunk s

/-- Running the reassembler from a buffer that does not end in a newline
processes exactly a newline-terminated prefix of the input and buffers
the rest. -/
lemma feedChunks_run (cs : List (List Char)) (buf : List Char) (out : List (List Char))
    (hbuf : endsNL buf = false) :
    ∃ P B, buf ++ cs.flatten = P ++ B ∧ endsNL B = false ∧
      (P = [] ∨ ∃ P', P = P' ++ ['\n']) ∧
      feedChunks ⟨buf, out⟩ cs = ⟨B, out ++ cleanLines P⟩ := by
  induction cs generalizing buf out with
  | nil =>
      exact ⟨[], buf, by simp, hbuf, Or.inl rfl, by simp [feedChunks, cleanLines_nil]⟩
  | cons c cs ih =>
      have hstep : feedChunks ⟨buf, out⟩ (c :: cs) = feedChunks (feedChunk ⟨buf, out⟩ c) cs := rfl
      by_cases hc : endsNL c = true
      · obtain ⟨c', rfl⟩ := (endsNL_iff c).mp hc
        have hfeed : feedChunk ⟨buf, out⟩ (c' ++ ['\n'])
            = ⟨[], out ++ cleanLines (buf ++ (c' ++ ['\n']))⟩ := by
          simp [feedChunk, hc]
        obtain ⟨P2, B, hsplit, hB, hterm, hrun⟩ :=
          ih [] (out ++ cleanLines (buf ++ (c' ++ ['\n']))) (by simp [endsNL])
        refine ⟨buf ++ (c' ++ ['\n']) ++ P2, B, ?_, hB, ?_, ?_⟩
        · simp only [List.nil_append] at hsplit
          simp [hsplit, List.append_assoc]
        · rcases hterm with rfl | ⟨P', rfl⟩
          · exact Or.inr ⟨buf ++ c', by simp⟩
          · exact Or.inr ⟨buf ++ (c' ++ ['\n']) ++ P', by simp⟩
        · rw [hstep, hfeed, hrun]
          have hkey : cleanLines (buf ++ (c' ++ '\n' :: P2))
              = cleanLines (buf ++ (c' ++ ['\n'])) ++ cleanLines P2 := by
            have h0 := cleanLines_chunk (buf ++ c') P2
            simpa [List.append_assoc] using h0
          simp [hkey, List.append_assoc]
      · have hc' : endsNL c = false := by simpa using hc
        have hfeed : feedChunk ⟨buf, out⟩ c = ⟨buf ++ c, out⟩ := by
          simp [feedChunk, hc']
        obtain ⟨P, B, hsplit, hB, hterm, hrun⟩ :=
          ih (buf ++ c) out (endsNL_append buf c hbuf hc')
        refine ⟨P, B, ?_, hB, hterm, ?_⟩
        · simpa [List.append_assoc] using hsplit
        · rw [hstep, hfeed, hrun]

/-- C6 (amended): any two chunkings of the same newline-terminated
stream yield the identical sequence of complete lines; each equals the
canonical line split of the whole stream. -/
theorem lineReassembler_chunking_invariant (cs1 cs2 : List (List Char))
    (hflat : cs1.flatten = cs2.flatten) (hterm : endsNL cs1.flatten = true) :
    (feedChunks ⟨[], []⟩ cs1).out = (feedChunks ⟨[], []⟩ cs2).out ∧
    (feedChunks ⟨[], []⟩ cs1).out = cleanLines cs1.flatten := by
  have key : ∀ cs : List (List Char), endsNL cs.flatten = true →
      (feedChunks ⟨[], []⟩ cs).out = cleanLines cs.flatten := by
    intro cs hcs
    obtain ⟨P, B, hsplit, hB, _, hrun⟩ := feedChunks_run cs [] [] (by simp [endsNL])
    simp only [List.nil_append] at hsplit
    have hBnil : B = [] := by
      cases B with
      | nil => rfl
      | cons x xs =>
          exfalso
          rw [hsplit] at hcs
          unfold endsNL at hcs hB
          rw [List.getLast?_append_of_ne_nil P (by simp)] at hcs
          rw [hcs] at hB
          exact Bool.true_eq_false.mp hB
    subst hBnil
    rw [hsplit, hrun]
    simp
  have h1 := key cs1 hterm
  have h2 := key cs2 (hflat ▸ hterm)
  exact ⟨h1.trans (by rw [hflat, ← h2]), h1⟩

/-- Witness for the amended C6: the stream "a\nb\n" split in two
different ways yields the same lines. -/
theorem lineReassembler_chunking_invariant_witness :
    (feedChunks ⟨[], []⟩ [['a', '\n', 'b', '\n']]).out
      = (feedChunks ⟨[], []⟩ [['a'], ['\n', 'b', '\n']]).out :=
  (lineReassembler_chunking_invariant [['a', '\n', 'b', '\n']] [['a'], ['\n', 'b', '\n']]
    (by decide) (by decide)).1

/-- Counterexample to C6 as stated: two chunkings of the stream "a\nb"
(which does not end in a line terminator) yield different line
sequences, because a chunk that does not end in a terminator is buffered
in full, complete lines included. -/
theorem lineReassembler_chunking_counterexample :
    ([['a', '\n', 'b']] : List (List Char)).flatten = [['a', '\n'], ['b']].flatten ∧
    (feedChunks ⟨[], []⟩ [['a', '\n', 'b']]).out
      ≠ (feedChunks ⟨[], []⟩ [['a', '\n'], ['b']]).out := by
  constructor
  · rfl
  · decide

/-! ## Racer RPC driver (src/unnamed/part_001, `CompletionManager`)

`runCommand` pushes a single-use callback onto `commandCallbacks` and
writes the tab-joined request to the daemon's stdin.  `dataHandler`
reassembles lines (see above) and, on each line starting with `END`,
shifts the oldest callback off the queue and invokes it with the lines
buffered since the previous sentinel.  `stop` invokes every pending
callback with an empty result.  Callbacks are modelled by numeric ids
(the issue-order position); an invocation is recorded in `delivered`. -/

/-- State of the completion manager's RPC driver. -/
structure RacerState where
  commandCallbacks : List Nat
  dataBuffer : List Char
  linesBuffer : List (List Char)
  delivered : List (Nat × List (List Char))
  daemonActive : Bool
deriving DecidableEq

/-- A line beginning with the sentinel prefix `END`. -/
def isEND (l : List Char) : Bool :=
  match l with
  | 'E' :: 'N' :: 'D' :: _ => true
  | _ => false

/-- Handle one reassembled line, mirroring the loop body of
`dataHandler`: empty lines are skipped; a sentinel line shifts the
oldest pending callback and invokes it with the buffered lines (the
buffer is cleared even when no callback is pending); any other line is
buffered. -/
def processLine (s : RacerState) (line : List Char) : RacerState :=
  if line.isEmpty then s
  else if isEND line then
    match s.commandCallbacks with
    | [] => { s with linesBuffer := [] }
    | id :: rest =>
        { s with commandCallbacks := rest,
                 delivered := s.delivered ++ [(id, s.linesBuffer)],
                 linesBuffer := [] }
  else { s with linesBuffer := s.linesBuffer ++ [line] }

/-- `dataHandler`: buffer a chunk that does not end in a line terminator;
otherwise split the accumulated data and process every line. -/
def feedData (s : RacerState) (chunk : List Char) : RacerState :=
  if endsNL chunk then
    (splitRN (s.dataBuffer ++ chunk)).foldl processLine { s with dataBuffer := [] }
  else { s with dataBuffer := s.dataBuffer ++ chunk }

/-- Feed a sequence of stdout chunks to the driver. -/
def feedDataAll (s : RacerState) (cs : List (List Char)) : RacerState :=
  cs.foldl feedData s

/-- `runCommand`: append the request's callback to the pending queue. -/
def runCommand (s : RacerState) (id : Nat) : RacerState :=
  { s with commandCallbacks := s.commandCallbacks ++ [id] }

/-- The driver state right after `start`. -/
def initRacer : RacerState :=
  { commandCallbacks := [], dataBuffer := [], linesBuffer := [], delivered := [],
    daemonActive := true }

/-- `clearCommandCallbacks`: invoke every pending callback with an empty
result (the queue itself is not emptied by this method). -/
def clearCommandCallbacks (s : RacerState) : RacerState :=
  { s with delivered := s.delivered ++ s.commandCallbacks.map (fun id => (id, [])) }

/-- `stop`: stop the daemon, then flush every pending callback with an
empty result. -/
def racerStop (s : RacerState) : RacerState :=
  clearCommandCallbacks { s with daemonActive := false }

/-- Reference batch extraction: group the complete non-empty lines of
the stream into the batches delimited by sentinel lines; a trailing
group not yet closed by a sentinel is not a batch. -/
def batchesFrom (cur : List (List Char)) : List (List Char) → List (List (List Char))
  | [] => []
  | l :: ls =>
      if l.isEmpty then batchesFrom cur ls
      else if isEND l then cur :: batchesFrom [] ls
      else batchesFrom (cur ++ [l]) ls

lemma processLine_dataBuffer (s : RacerState) (l : List Char) :
    (processLine s l).dataBuffer = s.dataBuffer := by
  unfold processLine
  by_cases h1 : l.isEmpty <;> by_cases h2 : isEND l <;>
    cases s.commandCallbacks <;> simp [h1, h2]

lemma foldl_processLine_dataBuffer (ls : List (List Char)) (s : RacerState) :
    (ls.foldl processLine s).dataBuffer = s.dataBuffer := by
  induction ls generalizing s with
  | nil => rfl
  | cons l ls ih => rw [List.foldl_cons, ih, processLine_dataBuffer]

lemma foldl_processLine_filter (ls : List (List Char)) (s : RacerState) :
    ls.foldl processLine s = (ls.filter (fun l => !l.isEmpty)).foldl processLine s := by
  induction ls generalizing s with
  | nil => rfl
  | cons l ls ih =>
      by_cases h : l.isEmpty
      · have : processLine s l = s := by simp [processLine, h]
        simp [List.filter_cons, h, this, ih]
      · simp only [List.foldl_cons, List.filter_cons, h]
        simpa using ih (processLine s l)

/-- Replace the data buffer of a driver state. -/
def withBuf (s : RacerState) (b : List Char) : RacerState :=
  { s with dataBuffer := b }

lemma withBuf_dataBuffer (s : RacerState) (b : List Char) :
    (withBuf s b).dataBuffer = b := rfl

lemma withBuf_withBuf (s : RacerState) (b1 b2 : List Char) :
    withBuf (withBuf s b1) b2 = withBuf s b2 := rfl

lemma withBuf_delivered (s : RacerState) (b : List Char) :
    (withBuf s b).delivered = s.delivered := rfl

lemma withBuf_eta (s : RacerState) (h : s.dataBuffer = []) : withBuf s [] = s := by
  cases s
  simp_all [withBuf]

/-- Chunked feeding processes exactly the non-empty lines of a
newline-terminated prefix of the stream, in order, buffering the rest. -/
lemma feedDataAll_run (cs : List (List Char)) (s : RacerState)
    (hbuf : endsNL s.dataBuffer = false) :
    ∃ P B, s.dataBuffer ++ cs.flatten = P ++ B ∧ endsNL B = false ∧
      (P = [] ∨ ∃ P', P = P' ++ ['\n']) ∧
      feedDataAll s cs = withBuf ((cleanLines P).foldl processLine (withBuf s [])) B := by
  induction cs generalizing s with
  | nil =>
      refine ⟨[], s.dataBuffer, by simp, hbuf, Or.inl rfl, ?_⟩
      rw [cleanLines_nil]
      show s = withBuf (withBuf s []) s.dataBuffer
      rw [withBuf_withBuf]
      cases s
      rfl
  | cons c cs ih =>
      have hstep : feedDataAll s (c :: cs) = feedDataAll (feedData s c) cs := rfl
      by_cases hc : endsNL c = true
      · obtain ⟨c', hc'eq⟩ := (endsNL_iff c).mp hc
        subst hc'eq
        have hfeed : feedData s (c' ++ ['\n'])
            = (cleanLines (s.dataBuffer ++ (c' ++ ['\n']))).foldl processLine
                (withBuf s []) := by
          unfold feedData
          rw [if_pos hc]
          unfold cleanLines
          exact foldl_processLine_filter _ _
        set s1 := (cleanLines (s.dataBuffer ++ (c' ++ ['\n']))).foldl processLine
          (withBuf s []) with hs1def
        have hs1buf : s1.dataBuffer = [] := by
          rw [hs1def, foldl_processLine_dataBuffer, withBuf_dataBuffer]
        obtain ⟨P2, B, hsplit, hB, hterm2, hrun⟩ := ih s1 (by rw [hs1buf]; rfl)
        rw [hs1buf, List.nil_append] at hsplit
        rw [withBuf_eta s1 hs1buf] at hrun
        refine ⟨s.dataBuffer ++ (c' ++ ['\n']) ++ P2, B, ?_, hB, ?_, ?_⟩
        · simp [hsplit, List.append_assoc]
        · rcases hterm2 with rfl | ⟨P', rfl⟩
          · exact Or.inr ⟨s.dataBuffer ++ c', by simp⟩
          · exact Or.inr ⟨s.dataBuffer ++ (c' ++ ['\n']) ++ P', by simp [List.append_assoc]⟩
        · have hkey : cleanLines (s.dataBuffer ++ (c' ++ ['\n']) ++ P2)
              = cleanLines (s.dataBuffer ++ (c' ++ ['\n'])) ++ cleanLines P2 := by
            have h0' := cleanLines_chunk (s.dataBuffer ++ c') P2
            simp only [List.append_assoc, List.singleton_append] at h0' ⊢
            exact h0'
          rw [hstep, hfeed, hrun, hkey, List.foldl_append, ← hs1def]
      · have hc' : endsNL c = false := by simpa using hc
        have hfeed : feedData s c = withBuf s (s.dataBuffer ++ c) := by
          unfold feedData
          rw [if_neg (by simp [hc'])]
          rfl
        obtain ⟨P, B, hsplit, hB, hterm2, hrun⟩ :=
          ih (withBuf s (s.dataBuffer ++ c))
            (by rw [withBuf_dataBuffer]; exact endsNL_append _ _ hbuf hc')
        rw [withBuf_dataBuffer] at hsplit
        rw [withBuf_withBuf] at hrun
        refine ⟨P, B, ?_, hB, hterm2, ?_⟩
        · simpa [List.append_assoc] using hsplit
        · rw [hstep, hfeed, hrun]

/-- Delivering lines to the driver matches the oldest pending callbacks,
in order, with the successive sentinel-delimited batches. -/
lemma foldl_processLine_delivered (ls : List (List Char)) (s : RacerState) :
    (ls.foldl processLine s).delivered
      = s.delivered ++ List.zip s.commandCallbacks (batchesFrom s.linesBuffer ls) := by
  induction ls generalizing s with
  | nil => simp [batchesFrom]
  | cons l ls ih =>
      by_cases h1 : l.isEmpty
      · have hpl : processLine s l = s := by simp [processLine, h1]
        rw [List.foldl_cons, hpl, ih]
        simp [batchesFrom, h1]
      · by_cases h2 : isEND l
        · cases hq : s.commandCallbacks with
          | nil =>
              have hpl : processLine s l = { s with linesBuffer := [] } := by
                simp [processLine, h1, h2, hq]
              rw [List.foldl_cons, hpl, ih]
              simp [batchesFrom, h1, h2, hq]
          | cons id rest =>
              have hpl : processLine s l
                  = { s with commandCallbacks := rest,
                             delivered := s.delivered ++ [(id, s.linesBuffer)],
                             linesBuffer := [] } := by
                simp [processLine, h1, h2, hq]
              rw [List.foldl_cons, hpl, ih]
              simp [batchesFrom, h1, h2, hq]
        · have hpl : processLine s l = { s with linesBuffer := s.linesBuffer ++ [l] } := by
            simp [processLine, h1, h2]
          rw [List.foldl_cons, hpl, ih]
          simp [batchesFrom, h1, h2]

lemma runCommand_fold (ids : List Nat) (s : RacerState) :
    ids.foldl runCommand s = { s with commandCallbacks := s.commandCallbacks ++ ids } := by
  induction ids generalizing s with
  | nil => simp
  | cons id ids ih =>
      rw [List.foldl_cons, ih]
      simp [runCommand]

/-- C5: after issuing requests 0, …, n-1 in order, however the daemon's
newline-terminated output is split into I/O chunks, the i-th
sentinel-delimited response batch is delivered to the i-th issued
request's callback — strict FIFO by issue order. -/
theorem racer_fifo (n : Nat) (cs : List (List Char))
    (hterm : endsNL cs.flatten = true) :
    (feedDataAll ((List.range n).foldl runCommand initRacer) cs).delivered
      = List.zip (List.range n) (batchesFrom [] (cleanLines cs.flatten)) := by
  set s0 := (List.range n).foldl runCommand initRacer with hs0
  have hs0fields : s0 = { initRacer with commandCallbacks := List.range n } := by
    rw [hs0, runCommand_fold]
    rfl
  have hs0buf : endsNL s0.dataBuffer = false := by rw [hs0fields]; rfl
  obtain ⟨P, B, hsplit, hB, _, hrun⟩ := feedDataAll_run cs s0 hs0buf
  have hs0dbnil : s0.dataBuffer = [] := by rw [hs0fields]; rfl
  rw [hs0dbnil, List.nil_append] at hsplit
  have hBnil : B = [] := by
    cases B with
    | nil => rfl
    | cons x xs =>
        exfalso
        rw [hsplit] at hterm
        unfold endsNL at hterm hB
        rw [List.getLast?_append_of_ne_nil P (by simp)] at hterm
        rw [hterm] at hB
        exact Bool.true_eq_false.mp hB
  subst hBnil
  rw [List.append_nil] at hsplit
  subst hsplit
  rw [hrun, withBuf_delivered, foldl_processLine_delivered, hs0fields]
  simp [initRacer, withBuf]

/-- Witness for C5: two requests, two batches, with the second sentinel
split across two chunks, delivered in FIFO order. -/
theorem racer_fifo_witness :
    (feedDataAll ((List.range 2).foldl runCommand initRacer)
        [['a', '\n', 'E'], ['N', 'D', '\n', 'b', '\n', 'E', 'N', 'D', '\n']]).delivered
      = [(0, [['a']]), (1, [['b']])] := by
  have h := racer_fifo 2
    [['a', '\n', 'E'], ['N', 'D', '\n', 'b', '\n', 'E', 'N', 'D', '\n']] (by decide)
  rw [h]
  decide

/-- C7: stopping the daemon invokes every pending callback with an empty
result set, so no outstanding request is left uninvoked. -/
theorem racer_stop_flushes (s : RacerState) (id : Nat)
    (hid : id ∈ s.commandCallbacks) :
    (id, ([] : List (List Char))) ∈ (racerStop s).delivered := by
  unfold racerStop clearCommandCallbacks
  simp only [List.mem_append]
  exact Or.inr (List.mem_map.mpr ⟨id, hid, rfl⟩)

/-- Witness for C7: a driver with two pending callbacks delivers an
empty result to each on stop. -/
theorem racer_stop_flushes_witness :
    (5, ([] : List (List Char)))
      ∈ (racerStop { initRacer with commandCallbacks := [5, 7] }).delivered :=
  racer_stop_flushes { initRacer with commandCallbacks := [5, 7] } 5 (by decide)

/-! ## Diagnostic publisher (src/src/components/cargo/diagnostic_publisher.ts)

`publishDiagnostic` resolves the file path to an absolute one, looks up
the file's current diagnostics, creates the entry if absent and
otherwise appends only when `isUniqueDiagnostic` holds, which compares
range and message only.  The vscode `DiagnosticCollection` keyed by file
URI is modelled as an association list from absolute path to diagnostic
list.  `path.isAbsolute`/`path.join` are modelled for POSIX paths; only
the absolute-path key matters for the dedup property. -/

/-- A vscode `Range` (start/end line and character). -/
structure VsRange where
  startLine : Nat
  startCharacter : Nat
  endLine : Nat
  endCharacter : Nat
deriving DecidableEq

/-- A vscode `Diagnostic`: range, message and severity. -/
structure VsDiagnostic where
  range : VsRange
  message : String
  severity : Nat
deriving DecidableEq

/-- A `FileDiagnostic`: a diagnostic together with the reported path. -/
structure FileDiagnostic where
  filePath : String
  diagnostic : VsDiagnostic
deriving DecidableEq

/-- The diagnostics collection: absolute path to diagnostics. -/
abbrev DiagCollection := List (String × List VsDiagnostic)

/-- `DiagnosticCollection.get`. -/
def collectionGet : DiagCollection → String → Option (List VsDiagnostic)
  | [], _ => none
  | (k, ds) :: rest, key => if k = key then some ds else collectionGet rest key

/-- `DiagnosticCollection.set`. -/
def collectionSet : DiagCollection → String → List VsDiagnostic → DiagCollection
  | [], key, ds => [(key, ds)]
  | (k, old) :: rest, key, ds =>
      if k = key then (k, ds) :: rest else (k, old) :: collectionSet rest key ds

/-- `Range.isEqual`: component-wise equality of the two ranges. -/
def rangeIsEqual (a b : VsRange) : Bool :=
  a == b

/-- `isUniqueDiagnostic`: no already-stored diagnostic of the file has
both an equal range and an equal message; severity is not compared. -/
def isUniqueDiagnostic (d : VsDiagnostic) (ds : List VsDiagnostic) : Bool :=
  (ds.find? (fun u => rangeIsEqual d.range u.range && d.message == u.message)).isNone

/-- `path.isAbsolute` for POSIX paths: the path starts with a slash. -/
def isAbsolutePath (p : String) : Bool :=
  match p.data with
  | '/' :: _ => true
  | _ => false

/-- `path.join` of a directory and a relative path (POSIX model). -/
def joinPath (a b : String) : String :=
  a ++ "/" ++ b

/-- `publishDiagnostic`: resolve the path, create the file's entry with
this one diagnostic if absent, otherwise append only when unique. -/
def publishDiagnostic (c : DiagCollection) (fd : FileDiagnostic) (cwd : String) :
    DiagCollection :=
  let absoluteFilePath :=
    if isAbsolutePath fd.filePath then fd.filePath else joinPath cwd fd.filePath
  match collectionGet c absoluteFilePath with
  | none => collectionSet c absoluteFilePath [fd.diagnostic]
  | some oneFileDiagnostics =>
      if isUniqueDiagnostic fd.diagnostic oneFileDiagnostics then
        collectionSet c absoluteFilePath (oneFileDiagnostics ++ [fd.diagnostic])
      else c

/-- `clearDiagnostics`: the empty collection. -/
def clearDiagnostics : DiagCollection := []

/-- A whole run of publish calls, each with its working directory. -/
def publishAll (c : DiagCollection) (ops : List (FileDiagnostic × String)) :
    DiagCollection :=
  ops.foldl (fun acc op => publishDiagnostic acc op.1 op.2) c

/-- Two diagnostics are duplicates when range and message agree,
regardless of severity. -/
def NotDup (a b : VsDiagnostic) : Prop :=
  ¬(a.range = b.range ∧ a.message = b.message)

/-- Every per-file sequence is free of duplicates. -/
def CollectionOk (c : DiagCollection) : Prop :=
  ∀ e ∈ c, List.Pairwise NotDup e.2

lemma collectionGet_ok (c : DiagCollection) (k : String) (ds : List VsDiagnostic)
    (hok : CollectionOk c) (hget : collectionGet c k = some ds) :
    List.Pairwise NotDup ds := by
  induction c with
  | nil => simp [collectionGet] at hget
  | cons e rest ih =>
      obtain ⟨k', ds'⟩ := e
      by_cases h : k' = k
      · rw [collectionGet, if_pos h] at hget
        obtain rfl := Option.some.inj hget
        exact hok (k', ds') (List.mem_cons_self _ _)
      · rw [collectionGet, if_neg h] at hget
        exact ih (fun e he => hok e (List.mem_cons_of_mem _ he)) hget

lemma collectionSet_ok (c : DiagCollection) (k : String) (ds : List VsDiagnostic)
    (hok : CollectionOk c) (hds : List.Pairwise NotDup ds) :
    CollectionOk (collectionSet c k ds) := by
  induction c with
  | nil =>
      intro e he
      simp only [collectionSet, List.mem_singleton] at he
      subst he
      exact hds
  | cons e' rest ih =>
      obtain ⟨k', ds'⟩ := e'
      by_cases h : k' = k
      · rw [collectionSet, if_pos h]
        intro e he
        rcases List.mem_cons.mp he with rfl | he'
        · exact hds
        · exact hok e (List.mem_cons_of_mem _ he')
      · rw [collectionSet, if_neg h]
        intro e he
        rcases List.mem_cons.mp he with rfl | he'
        · exact hok (k', ds') (List.mem_cons_self _ _)
        · exact ih (fun e he => hok e (List.mem_cons_of_mem _ he)) e he'

lemma isUniqueDiagnostic_spec (d : VsDiagnostic) (ds : List VsDiagnostic)
    (h : isUniqueDiagnostic d ds = true) :
    ∀ u ∈ ds, NotDup u d := by
  intro u hu
  unfold isUniqueDiagnostic at h
  rw [Option.isNone_iff_eq_none, List.find?_eq_none] at h
  have := h u hu
  unfold NotDup
  rintro ⟨hr, hm⟩
  apply this
  rw [Bool.and_eq_true, beq_iff_eq]
  refine ⟨?_, hm.symm⟩
  unfold rangeIsEqual
  rw [beq_iff_eq]
  exact hr.symm

lemma pairwise_append_unique (d : VsDiagnostic) (ds : List VsDiagnostic)
    (hds : List.Pairwise NotDup ds) (huniq : ∀ u ∈ ds, NotDup u d) :
    List.Pairwise NotDup (ds ++ [d]) := by
  rw [List.pairwise_append]
  exact ⟨hds, List.pairwise_singleton NotDup d, fun a ha b hb => by
    rw [List.mem_singleton] at hb
    subst hb
    exact huniq a ha⟩

lemma publishDiagnostic_ok (c : DiagCollection) (fd : FileDiagnostic) (cwd : String)
    (hok : CollectionOk c) : CollectionOk (publishDiagnostic c fd cwd) := by
  simp only [publishDiagnostic]
  generalize (if isAbsolutePath fd.filePath = true then fd.filePath
    else joinPath cwd fd.filePath) = key
  cases hget : collectionGet c key with
  | none =>
      exact collectionSet_ok c key [fd.diagnostic] hok
        (List.pairwise_singleton NotDup fd.diagnostic)
  | some ds =>
      show CollectionOk (if isUniqueDiagnostic fd.diagnostic ds = true then
        collectionSet c key (ds ++ [fd.diagnostic]) else c)
      by_cases huniq : isUniqueDiagnostic fd.diagnostic ds = true
      · rw [if_pos huniq]
        exact collectionSet_ok c key _ hok
          (pairwise_append_unique _ _ (collectionGet_ok c key ds hok hget)
            (isUniqueDiagnostic_spec _ _ huniq))
      · rw [if_neg huniq]
        exact hok

lemma publishAll_ok (ops : List (FileDiagnostic × String)) (c : DiagCollection)
    (hok : CollectionOk c) : CollectionOk (publishAll c ops) := by
  induction ops generalizing c with
  | nil => exact hok
  | cons op ops ih => exact ih _ (publishDiagnostic_ok c op.1 op.2 hok)

/-- C2: after any sequence of publish calls, no file's stored sequence
contains two diagnostics with an equal range and an equal message; the
duplicate check compares range and message only, so this holds even for
records differing only in severity. -/
theorem publisher_no_duplicates (ops : List (FileDiagnostic × String))
    (k : String) (ds : List VsDiagnostic)
    (hget : collectionGet (publishAll clearDiagnostics ops) k = some ds) :
    List.Pairwise NotDup ds := by
  have base : CollectionOk clearDiagnostics := by
    intro e he
    simp [clearDiagnostics] at he
  exact collectionGet_ok _ k ds (publishAll_ok ops clearDiagnostics base) hget

/-- First sample diagnostic for the C2 witness: severity 1. -/
def diagW1 : VsDiagnostic :=
  { range := ⟨1, 2, 1, 5⟩, message := "mismatched types", severity := 1 }

/-- Second sample diagnostic for the C2 witness: same range and message
as the first, but severity 2. -/
def diagW2 : VsDiagnostic :=
  { range := ⟨1, 2, 1, 5⟩, message := "mismatched types", severity := 2 }

/-- Witness for C2: publishing the same range and message twice, once as
severity 1 and once as severity 2, stores the record only once. -/
theorem publisher_no_duplicates_witness :
    List.Pairwise NotDup [diagW1] :=
  publisher_no_duplicates
    [(⟨"src/main.rs", diagW1⟩, "/w"), (⟨"src/main.rs", diagW2⟩, "/w")]
    "/w/src/main.rs" [diagW1] (by decide)

/-! ## Machine-readable diagnostic records (src/unnamed/part_003,
`CommandService.parseJson`, `addNotesToMessage`)

A span of a structured diagnostic record.  The `expansion` field models
the JSON shape: `none` when the record has no expansion object,
`some none` when the expansion object carries a null span, and
`some (some s)` when it carries span `s` — the loop condition
`span.expansion && span.expansion.span` holds exactly in the last case.
The `errors.push` of the source is modelled by returning an optional
record. -/

/-- One span of a machine-readable record. -/
inductive Span where
  | mk (file_name : String) (line_start : Nat) (column_start : Nat)
       (line_end : Nat) (column_end : Nat) (is_primary : Bool)
       (expansion : Option (Option Span))

/-- The reported file of a span. -/
def Span.file_name : Span → String
  | .mk v _ _ _ _ _ _ => v

/-- The 1-based start line of a span. -/
def Span.line_start : Span → Nat
  | .mk _ v _ _ _ _ _ => v

/-- The 1-based start column of a span. -/
def Span.column_start : Span → Nat
  | .mk _ _ v _ _ _ _ => v

/-- The 1-based end line of a span. -/
def Span.line_end : Span → Nat
  | .mk _ _ _ v _ _ _ => v

/-- The 1-based end column of a span. -/
def Span.column_end : Span → Nat
  | .mk _ _ _ _ v _ _ => v

/-- Whether the tool marked this span as primary. -/
def Span.is_primary : Span → Bool
  | .mk _ _ _ _ _ v _ => v

/-- The optional expansion object with its optional span. -/
def Span.expansion : Span → Option (Option Span)
  | .mk _ _ _ _ _ _ v => v

/-- The while loop following `expansion.span` until a span without a
concrete expansion target is reached. -/
def followExpansion : Span → Span
  | .mk _ _ _ _ _ _ (some (some s)) => followExpansion s
  | s => s

/-- A child diagnostic (note, suggestion); children nest recursively.
Absent `spans`/`children` arrays are modelled as empty lists, which the
source treats identically. -/
inductive Child where
  | mk (message : String) (spans : List Span) (children : List Child)

/-- The message of a child diagnostic. -/
def Child.message : Child → String
  | .mk v _ _ => v

/-- The spans of a child diagnostic. -/
def Child.spans : Child → List Span
  | .mk _ v _ => v

/-- The nested children of a child diagnostic. -/
def Child.children : Child → List Child
  | .mk _ _ v => v

/-- The `code` object of a record. -/
structure ErrorCode where
  code : String

/-- A machine-readable diagnostic record. -/
structure DiagJson where
  message : String
  level : String
  spans : List Span
  children : List Child
  code : Option ErrorCode

/-- The indentation for nesting depth `level`: three spaces per level. -/
def identOf (level : Nat) : String :=
  String.join (List.replicate level "   ")

/-- The `file_name(line_start)` references of a child's spans; a span
with a falsy file name or line is skipped. -/
def childLocs (spans : List Span) : List String :=
  spans.filterMap (fun sp =>
    if sp.file_name = "" || sp.line_start = 0 then none
    else some (sp.file_name ++ "(" ++ toString sp.line_start ++ ")"))

/-- `addNotesToMessage`: flatten child diagnostics into the message as
indented lines, appending each child's source locations after a colon,
recursing into nested children with one more level of indentation. -/
def addNotesToMessage (msg : String) (children : List Child) (level : Nat) : String :=
  match children with
  | [] => msg
  | Child.mk cmsg cspans cchildren :: cs =>
      let m1 := msg ++ "\n" ++ identOf level ++ cmsg
      let m2 :=
        if cspans.isEmpty then m1
        else m1 ++ ": " ++ String.intercalate ", " (childLocs cspans)
      let m3 := addNotesToMessage m2 cchildren (level + 1)
      addNotesToMessage m3 cs level
termination_by sizeOf children
decreasing_by
  all_goals (simp only [List.cons.sizeOf_spec, Child.mk.sizeOf_spec]; omega)

/-- A parsed diagnostic, mirroring the `RustError` interface. -/
structure RustError where
  filename : String
  startLine : Nat
  startCharacter : Nat
  endLine : Nat
  endCharacter : Nat
  severity : String
  message : String
deriving DecidableEq

/-- `parseJson`: reject a record whose span list is empty or has no
primary span; otherwise follow the primary span's expansion chain, take
its location, prefix the message with the error code if present, and
flatten the children into the message. -/
def parseJson (j : DiagJson) : Option RustError :=
  if j.spans.isEmpty then none
  else
    match j.spans.find? (fun sp => sp.is_primary) with
    | none => none
    | some primarySpan0 =>
        let primarySpan := followExpansion primarySpan0
        let message0 := j.message
        let message1 :=
          match j.code with
          | some c => c.code ++ ": " ++ message0
          | none => message0
        let message2 := addNotesToMessage message1 j.children 1
        some { filename := primarySpan.file_name,
               startLine := primarySpan.line_start,
               startCharacter := primarySpan.column_start,
               endLine := primarySpan.line_end,
               endCharacter := primarySpan.column_end,
               severity := j.level,
               message := message2 }

lemma followExpansion_of_target (s t : Span) (h : s.expansion = some (some t)) :
    followExpansion s = followExpansion t := by
  cases s with
  | mk fn ls cs le ce ip ex =>
      cases ex with
      | none => simp [Span.expansion] at h
      | some o =>
          cases o with
          | none => simp [Span.expansion] at h
          | some u =>
              obtain rfl : u = t := by simpa [Span.expansion] using h
              rfl

lemma followExpansion_of_terminal (s : Span)
    (h : s.expansion = none ∨ s.expansion = some none) : followExpansion s = s := by
  cases s with
  | mk fn ls cs le ce ip ex =>
      cases ex with
      | none => rfl
      | some o =>
          cases o with
          | none => rfl
          | some u => simp [Span.expansion] at h

lemma find?_unique_primary (l : List Span) (A : Span) (hmem : A ∈ l)
    (hprim : A.is_primary = true) (huniq : ∀ B ∈ l, B.is_primary = true → B = A) :
    l.find? (fun sp => sp.is_primary) = some A := by
  induction l with
  | nil => simp at hmem
  | cons h t ih =>
      by_cases hp : h.is_primary = true
      · have : h = A := huniq h (List.mem_cons_self _ _) hp
        subst this
        simp [List.find?_cons, hp]
      · have hne : A ≠ h := fun he => hp (he ▸ hprim)
        have hmem' : A ∈ t := by
          rcases List.mem_cons.mp hmem with he | ht
          · exact absurd he hne
          · exact ht
        rw [List.find?_cons]
        simp only [hp]
        exact ih hmem' (fun B hB hBp => huniq B (List.mem_cons_of_mem _ hB) hBp)

lemma parseJson_of_find (j : DiagJson) (A : Span)
    (hfind : j.spans.find? (fun sp => sp.is_primary) = some A) :
    ∃ e, parseJson j = some e ∧ e.filename = (followExpansion A).file_name ∧
      e.startLine = (followExpansion A).line_start ∧
      e.startCharacter = (followExpansion A).column_start ∧
      e.endLine = (followExpansion A).line_end ∧
      e.endCharacter = (followExpansion A).column_end := by
  have hne : j.spans.isEmpty = false := by
    cases hs : j.spans with
    | nil => rw [hs] at hfind; simp [List.find?] at hfind
    | cons a l => rfl
  unfold parseJson
  rw [hne, hfind]
  exact ⟨_, rfl, rfl, rfl, rfl, rfl, rfl⟩

/-- Counterexample span chain for C3: the expansion target. -/
def spanS2 : Span := .mk "lib.rs" 9 8 9 10 false none

/-- Counterexample primary span for C3: primary, but carrying an
expansion that resolves to `spanS2`. -/
def spanA : Span := .mk "main.rs" 1 2 1 3 true (some (some spanS2))

/-- Counterexample non-primary span for C3. -/
def spanB : Span := .mk "other.rs" 5 6 5 7 false none

/-- Counterexample record for C3: primary span `spanA` and non-primary
`spanB`. -/
def jsonC3 : DiagJson :=
  { message := "m", level := "error", spans := [spanA, spanB], children := [],
    code := none }

/-- Counterexample to C3 as stated: for a record whose span list is the
primary span `spanA` followed by the non-primary `spanB`, the parsed
record's file is that of `spanA`'s expansion target, not `spanA`'s own
file. -/
theorem parseJson_primary_counterexample :
    spanA.is_primary = true ∧ spanB.is_primary = false ∧
    jsonC3.spans = [spanA, spanB] ∧
    (parseJson jsonC3).map RustError.filename = some "lib.rs" ∧
    spanA.file_name = "main.rs" ∧
    (parseJson jsonC3).map RustError.filename ≠ some spanA.file_name := by
  refine ⟨rfl, rfl, rfl, rfl, rfl, ?_⟩
  intro h
  simp [parseJson, jsonC3, spanA, spanB, spanS2, followExpansion, Span.file_name,
    List.find?, Span.is_primary, addNotesToMessage] at h

/-- C3 (amended): for a record whose span list contains a primary span A
with every other primary-marked span equal to A, the parsed record's
location is the location reached by following A's expansion chain (A's
own location when A carries no expansion), never a non-primary span's;
a record whose span list is empty or contains no primary span yields no
record. -/
theorem parseJson_primary_span (j : DiagJson) :
    (∀ A, A ∈ j.spans → A.is_primary = true →
      (∀ B ∈ j.spans, B.is_primary = true → B = A) →
      ∃ e, parseJson j = some e ∧ e.filename = (followExpansion A).file_name ∧
        e.startLine = (followExpansion A).line_start ∧
        e.startCharacter = (followExpansion A).column_start ∧
        e.endLine = (followExpansion A).line_end ∧
        e.endCharacter = (followExpansion A).column_end) ∧
    ((∀ B ∈ j.spans, B.is_primary = false) → parseJson j = none) := by
  constructor
  · intro A hmem hprim huniq
    exact parseJson_of_find j A (find?_unique_primary j.spans A hmem hprim huniq)
  · intro hnone
    have hfind : j.spans.find? (fun sp => sp.is_primary) = none := by
      rw [List.find?_eq_none]
      intro x hx
      simp [hnone x hx]
    unfold parseJson
    rw [hfind]
    cases hs : j.spans.isEmpty
    · rfl
    · rfl

/-- Sample primary span without expansion for the C3 witness. -/
def spanW : Span := .mk "main.rs" 3 5 3 10 true none

/-- Sample record for the C3 witness: primary `spanW` next to a
non-primary span. -/
def jsonW : DiagJson :=
  { message := "m", level := "warning", spans := [spanW, spanB], children := [],
    code := none }

/-- Record with no primary span for the C3 witness. -/
def jsonNoPrim : DiagJson :=
  { message := "m", level := "error", spans := [spanB], children := [], code := none }

/-- Witness for the amended C3: a record with expansion-free primary
span `spanW` parses to `spanW`'s own location, and a record with no
primary span parses to nothing. -/
theorem parseJson_primary_span_witness :
    (∃ e, parseJson jsonW = some e ∧ e.filename = (followExpansion spanW).file_name ∧
      e.startLine = (followExpansion spanW).line_start ∧
      e.startCharacter = (followExpansion spanW).column_start ∧
      e.endLine = (followExpansion spanW).line_end ∧
      e.endCharacter = (followExpansion spanW).column_end) ∧
    parseJson jsonNoPrim = none := by
  constructor
  · refine (parseJson_primary_span jsonW).1 spanW (by simp [jsonW]) rfl ?_
    intro B hB hBp
    rcases List.mem_cons.mp hB with rfl | hB2
    · rfl
    · rcases List.mem_cons.mp hB2 with rfl | h3
      · exact absurd hBp (by decide)
      · simp at h3
  · refine (parseJson_primary_span jsonNoPrim).2 ?_
    intro B hB
    rcases List.mem_cons.mp hB with rfl | h2
    · rfl
    · simp at h2

/-- C4: when the primary span carries an expansion whose span `S2` has
no expansion of its own, the parsed record's location is `S2`'s: the
parser follows the expansion chain to its outermost concrete location
before taking file, line and column values. -/
theorem parseJson_follows_expansion (j : DiagJson) (A S2 : Span)
    (hfind : j.spans.find? (fun sp => sp.is_primary) = some A)
    (hexp : A.expansion = some (some S2)) (hterm : S2.expansion = none) :
    ∃ e, parseJson j = some e ∧ e.filename = S2.file_name ∧
      e.startLine = S2.line_start ∧ e.startCharacter = S2.column_start ∧
      e.endLine = S2.line_end ∧ e.endCharacter = S2.column_end := by
  have hfollow : followExpansion A = S2 := by
    rw [followExpansion_of_target A S2 hexp,
      followExpansion_of_terminal S2 (Or.inl hterm)]
  obtain ⟨e, hsome, h1, h2, h3, h4, h5⟩ := parseJson_of_find j A hfind
  rw [hfollow] at h1 h2 h3 h4 h5
  exact ⟨e, hsome, h1, h2, h3, h4, h5⟩

/-- Counterexample record reused as C4 witness data: `spanA` expands to
`spanS2`, which has no expansion. -/
theorem parseJson_follows_expansion_witness :
    ∃ e, parseJson jsonC3 = some e ∧ e.filename = spanS2.file_name ∧
      e.startLine = spanS2.line_start ∧ e.startCharacter = spanS2.column_start ∧
      e.endLine = spanS2.line_end ∧ e.endCharacter = spanS2.column_end :=
  parseJson_follows_expansion jsonC3 spanA spanS2 rfl rfl rfl

/-! ## Task-manager argument synthesis
(src/src/components/cargo/output_channel_task_manager.ts, `startTask`)

`startTask` first prepends `--message-format json` when output parsing
was requested and the command is one of the diagnostic-producing
subcommands, then prepends `--manifest-path <cwd>/Cargo.toml` when a
configured cargo working directory exists and differs from the
invocation directory, and finally prepends the subcommand itself. -/

/-- The subcommands of the `switch` in
`prependArgsWithMessageFormatIfRequired`. -/
def cargoSubcommandsWithJson : List String :=
  ["build", "check", "clippy", "test", "run"]

/-- The argument list synthesized by `startTask` before spawning. -/
def startTaskArgs (command : String) (args : List String) (cwd : String)
    (cargoCwd : Option String) (parseOutput : Bool) : List String :=
  let args1 :=
    if parseOutput = true ∧ command ∈ cargoSubcommandsWithJson then
      ["--message-format", "json"] ++ args
    else args
  let args2 :=
    match cargoCwd with
    | none => args1
    | some c => if c = cwd then args1 else ["--manifest-path", joinPath cwd "Cargo.toml"] ++ args1
  command :: args2

/-- C8: the synthesized argument list is the subcommand first, then the
manifest-path override exactly when a configured working directory
exists and differs from the invocation directory, then the
structured-output flag exactly when requested for a known subcommand,
then the user arguments. -/
theorem startTask_argument_order (command : String) (args : List String) (cwd : String)
    (cargoCwd : Option String) (parseOutput : Bool) :
    startTaskArgs command args cwd cargoCwd parseOutput
      = [command]
        ++ (if cargoCwd ≠ none ∧ cargoCwd ≠ some cwd then
              ["--manifest-path", joinPath cwd "Cargo.toml"] else [])
        ++ (if parseOutput = true ∧ command ∈ cargoSubcommandsWithJson then
              ["--message-format", "json"] else [])
        ++ args
      ∧ (startTaskArgs command args cwd cargoCwd parseOutput).head? = some command := by
  constructor
  · unfold startTaskArgs
    by_cases hp : parseOutput = true ∧ command ∈ cargoSubcommandsWithJson
    · rw [if_pos hp]
      cases cargoCwd with
      | none => simp [hp]
      | some c =>
          by_cases hcwd : c = cwd
          · subst hcwd
            simp [hp]
          · simp [hp, hcwd, Option.some.injEq]
    · rw [if_neg hp]
      cases cargoCwd with
      | none => simp [hp]
      | some c =>
          by_cases hcwd : c = cwd
          · subst hcwd
            simp [hp]
          · simp [hp, hcwd, Option.some.injEq]
  · rfl

/-! ## New human-readable parser (src/unnamed/part_003,
`CommandService.parseNewHumanReadable`)

The source scans the accumulated output with two independent global
regexes in lockstep: one matching a whole diagnostic block (severity,
optional code, message, `--> file:line:col`, an optional source-context
group, optional trailing note lines), one matching a caret/underline
marker line and capturing its run of carets.  The loop bodies are
embedded over the successive match results of the two regexes (the regex
engine itself is host-library behaviour): one `BlockMatch` per block
match, one `CaretMatch` per caret match.  When a block match exists but
the caret regex is exhausted, the source dereferences a null match and
throws, which is modelled by `Except.error`. -/

/-- The capture groups of one block match of the multi-line pattern. -/
structure BlockMatch where
  severity : String
  code : Option String
  message : String
  filename : String
  line : Nat
  column : Nat
  context : Option String
  notes : Option String

/-- The caret run captured by one match of the marker-line pattern. -/
structure CaretMatch where
  caret : String

/-- JavaScript whitespace as matched by the regex whitespace class. -/
def isJsWhitespace (c : Char) : Bool :=
  c = ' ' || c = '\t' || c = '\n' || c = '\r' || c = '\x0b' || c = '\x0c'

/-- One global-replace pass turning a pipe followed by two whitespace
characters into a pipe followed by one space. -/
def replacePipeTwoWs : List Char → List Char
  | '|' :: w1 :: w2 :: rest =>
      if isJsWhitespace w1 && isJsWhitespace w2 then
        '|' :: ' ' :: replacePipeTwoWs rest
      else '|' :: replacePipeTwoWs (w1 :: w2 :: rest)
  | c :: rest => c :: replacePipeTwoWs rest
  | [] => []

/-- The test for a digit, a space, a pipe and two whitespace characters
somewhere in the string. -/
def testDigitPipeWs : List Char → Bool
  | d :: ' ' :: '|' :: w1 :: w2 :: rest =>
      if d.isDigit && isJsWhitespace w1 && isJsWhitespace w2 then true
      else testDigitPipeWs (' ' :: '|' :: w1 :: w2 :: rest)
  | _ :: rest => testDigitPipeWs rest
  | [] => false

/-- The while loop collapsing pipe-and-double-whitespace runs in the
context group.  Every productive pass shortens the string by at least
one character, so fuel equal to the length suffices. -/
def collapseCtx : Nat → List Char → List Char
  | 0, s => s
  | Nat.succ fuel, s =>
      if testDigitPipeWs s then collapseCtx fuel (replacePipeTwoWs s) else s

/-- The message assembled for one block: the message group, then the
collapsed context group without its last character, then the notes
group. -/
def buildNewMsg (b : BlockMatch) : String :=
  let m1 :=
    match b.context with
    | none => b.message
    | some ctx =>
        b.message ++ "\n" ++ String.mk ((collapseCtx (ctx.length + 1) ctx.data).dropLast)
  match b.notes with
  | none => m1
  | some nts => m1 ++ "\n" ++ nts

/-- The loop of `parseNewHumanReadable` over the successive block and
caret matches: each block takes the next caret match; the record's end
line is the start line and its end column is the start column plus the
caret run's width; a block without a remaining caret match makes the
source throw. -/
def parseNewHumanReadable :
    List BlockMatch → List CaretMatch → Except Unit (List RustError)
  | [], _ => .ok []
  | _ :: _, [] => .error ()
  | b :: bs, r :: rs =>
      let e : RustError :=
        { filename := b.filename, startLine := b.line, startCharacter := b.column,
          endLine := b.line, endCharacter := b.column + r.caret.length,
          severity := b.severity, message := buildNewMsg b }
      match parseNewHumanReadable bs rs with
      | .ok es => .ok (e :: es)
      | .error u => .error u

/-- C9: every record produced by the new human-readable parser has its
end line equal to its start line and its end column equal to its start
column plus the width of the caret marker captured for that block. -/
theorem parseNewHumanReadable_range (blocks : List BlockMatch)
    (carets : List CaretMatch) (es : List RustError)
    (hok : parseNewHumanReadable blocks carets = .ok es) :
    List.Forall₂
      (fun (e : RustError) (r : CaretMatch) =>
        e.endLine = e.startLine ∧ e.endCharacter = e.startCharacter + r.caret.length)
      es (carets.take es.length) := by
  induction blocks generalizing carets es with
  | nil =>
      obtain rfl : ([] : List RustError) = es := by
        simpa [parseNewHumanReadable] using hok
      simp
  | cons b bs ih =>
      cases carets with
      | nil => simp [parseNewHumanReadable] at hok
      | cons r rs =>
          rw [parseNewHumanReadable] at hok
          cases hrec : parseNewHumanReadable bs rs with
          | error u => rw [hrec] at hok; simp at hok
          | ok es' =>
              rw [hrec] at hok
              simp only [Except.ok.injEq] at hok
              subst hok
              simp only [List.length_cons, List.take_succ_cons]
              exact List.Forall₂.cons ⟨rfl, rfl⟩ (ih rs es' hrec)

/-- Sample block for the C9 witness. -/
def blockW : BlockMatch :=
  { severity := "error", code := none, message := "mismatched types",
    filename := "src/main.rs", line := 3, column := 5, context := none, notes := none }

/-- Witness for C9: one block paired with a three-caret marker yields a
record spanning columns 5 to 8 on line 3. -/
theorem parseNewHumanReadable_range_witness :
    List.Forall₂
      (fun (e : RustError) (r : CaretMatch) =>
        e.endLine = e.startLine ∧ e.endCharacter = e.startCharacter + r.caret.length)
      [{ filename := "src/main.rs", startLine := 3, startCharacter := 5, endLine := 3,
         endCharacter := 8, severity := "error", message := "mismatched types" }]
      [(⟨"^^^"⟩ : CaretMatch)] :=
  parseNewHumanReadable_range [blockW] [⟨"^^^"⟩]
    [{ filename := "src/main.rs", startLine := 3, startCharacter := 5, endLine := 3,
       endCharacter := 8, severity := "error", message := "mismatched types" }] rfl

end RustyCode
